import Mathlib

/-!
Verification of the ProjectBrain authorization core.

This file gives a shallow embedding, in Lean, of the authorization core of the
repository and proves properties of it:

* the role hierarchy, permission tables and resolver from the auth library
  (`ROLE_HIERARCHY`, `ROLE_PERMISSIONS`, `getInheritedRoles`, `hasRole`,
  `hasPermission`, `hasAllPermissions`, `hasAnyPermission`, `hasRequiredRole`,
  `getAllPermissions`);
* the in-memory fixed-window rate limiter (`isRateLimited`) and the API
  authorization guard (`withAuth`) from `src/lib/apiAuth.ts`;
* the route-protection middleware (public routes, role-gated routes,
  permission-gated routes).

JavaScript numbers standing for timestamps are modelled as `Nat` (millisecond
clock values are nonnegative and far from any overflow boundary), JavaScript
`undefined` / `null` as `Option`, thrown exceptions as explicit `Bool` flags
for the two fallible external calls that the guard handles with `try`/`catch`
(the audit sink insert and the wrapped route handler).
-/

namespace ProjectBrain

/-- The closed set of user roles of the application
(`type UserRole = 'admin' | 'director' | 'team' | 'client' | 'builder'`). -/
inductive UserRole : Type
  | admin
  | director
  | team
  | client
  | builder
deriving DecidableEq, Fintype, Repr

/-- The closed set of permission tokens of the application. -/
inductive Permission : Type
  | manageUsers
  | viewUsers
  | manageProjects
  | viewProjects
  | manageContent
  | submitContent
  | viewAnalytics
  | manageSettings
  | manageRoles
deriving DecidableEq, Fintype, Repr

open UserRole Permission

/-- The configured role hierarchy (`ROLE_HIERARCHY` in the auth library):
each role maps to the list of roles it inherits permissions from. -/
def ROLE_HIERARCHY : UserRole → List UserRole
  | admin => []
  | director => [admin]
  | team => [director, admin]
  | client => []
  | builder => [client]

/-- The direct permission grants of each role
(`ROLE_PERMISSIONS` in the auth library). -/
def ROLE_PERMISSIONS : UserRole → List Permission
  | admin =>
      [manageUsers, viewUsers, manageProjects, viewProjects,
       manageContent, submitContent, viewAnalytics, manageSettings, manageRoles]
  | director =>
      [viewUsers, manageProjects, viewProjects,
       manageContent, submitContent, viewAnalytics]
  | team =>
      [viewProjects, manageContent, submitContent, viewAnalytics]
  | client =>
      [viewProjects, submitContent]
  | builder =>
      [viewProjects]

/-- One call of the recursive `traverse` closure inside `getInheritedRoles`.
The source recursion is
`traverse(c): if visited.has(c) return; visited.add(c);
for (p of H[c]) { result.push(p); traverse(p) }`,
with `visited` a mutable set and `result` a mutable array; here both are
threaded through the fold.  The extra `Nat` argument bounds the recursion
depth: every recursive call happens with a strictly larger visited set, so a
depth of `Fintype.card UserRole` can never be exhausted (this is proved below
as part of `traverseF_char`); it only serves to make the recursion structural.
The hierarchy `H` is a parameter because the source algorithm is checked on
every configuration, including cyclic ones. -/
def traverseF (H : UserRole → List UserRole) :
    Nat → Finset UserRole → UserRole → Finset UserRole × List UserRole
  | 0, visited, _ => (visited, [])
  | n + 1, visited, current =>
    if current ∈ visited then (visited, [])
    else
      (H current).foldl
        (fun acc p =>
          let sub := traverseF H n acc.1 p
          (sub.1, acc.2 ++ p :: sub.2))
        (insert current visited, [])

/-- The loop `for (p of l) { result.push(p); traverse(p) }` of
`getInheritedRoles`, run on a list `l` of parents with current visited set
`visited`: the same fold that appears in the body of `traverseF`, at depth
budget `n`. -/
def traverseList (H : UserRole → List UserRole) (n : Nat)
    (visited : Finset UserRole) (l : List UserRole) :
    Finset UserRole × List UserRole :=
  l.foldl
    (fun acc p =>
      let sub := traverseF H n acc.1 p
      (sub.1, acc.2 ++ p :: sub.2))
    (visited, [])

/-- `getInheritedRoles`, generic in the configured hierarchy: run the
traversal from `role` with an empty visited set and return the accumulated
result array. -/
def getInheritedRolesWith (H : UserRole → List UserRole) (role : UserRole) :
    List UserRole :=
  (traverseF H (Fintype.card UserRole) ∅ role).2

/-- `getInheritedRoles` of the auth library: the traversal over the shipped
`ROLE_HIERARCHY`. -/
def getInheritedRoles (role : UserRole) : List UserRole :=
  getInheritedRolesWith ROLE_HIERARCHY role

/-- `hasRole(userRole, requiredRole)`: false for an undefined user role,
true on a direct match, otherwise true iff the required role appears among
the inherited roles. -/
def hasRole (userRole : Option UserRole) (requiredRole : UserRole) : Bool :=
  match userRole with
  | none => false
  | some r => r == requiredRole || (getInheritedRoles r).contains requiredRole

/-- `hasRequiredRole(userRole, requiredRoles)`: false for an undefined role or
an empty requirement list, otherwise true iff some required role passes
`hasRole`. -/
def hasRequiredRole (userRole : Option UserRole) (requiredRoles : List UserRole) : Bool :=
  match userRole with
  | none => false
  | some r =>
    if requiredRoles.length = 0 then false
    else requiredRoles.any fun role => hasRole (some r) role

/-- `hasPermission(userRole, permission)`: false for an undefined role;
otherwise check the direct grants, then the grants of every inherited role. -/
def hasPermission (userRole : Option UserRole) (permission : Permission) : Bool :=
  match userRole with
  | none => false
  | some r =>
    if (ROLE_PERMISSIONS r).contains permission then true
    else (getInheritedRoles r).any fun role => (ROLE_PERMISSIONS role).contains permission

/-- `hasAllPermissions(userRole, permissions)`: false for an undefined role or
an empty list, otherwise every listed permission must pass `hasPermission`. -/
def hasAllPermissions (userRole : Option UserRole) (permissions : List Permission) : Bool :=
  match userRole with
  | none => false
  | some r =>
    if permissions.length = 0 then false
    else permissions.all fun p => hasPermission (some r) p

/-- `hasAnyPermission(userRole, permissions)`: false for an undefined role or
an empty list, otherwise some listed permission must pass `hasPermission`. -/
def hasAnyPermission (userRole : Option UserRole) (permissions : List Permission) : Bool :=
  match userRole with
  | none => false
  | some r =>
    if permissions.length = 0 then false
    else permissions.any fun p => hasPermission (some r) p

/-- Adding one element to a JavaScript `Set` kept as an insertion-ordered
duplicate-free list: a no-op when the element is present, appended at the end
otherwise. -/
def setAdd (l : List Permission) (p : Permission) : List Permission :=
  if p ∈ l then l else l ++ [p]

/-- `getAllPermissions(userRole)`: empty for an undefined role; otherwise a
`Set` seeded with the direct grants into which the grants of every inherited
role are added, returned as an array (`Array.from`, insertion order). -/
def getAllPermissions (userRole : Option UserRole) : List Permission :=
  match userRole with
  | none => []
  | some r =>
    ((ROLE_PERMISSIONS r) ++ (getInheritedRoles r).flatMap fun role =>
      ROLE_PERMISSIONS role).foldl setAdd []

/-- Reachability along hierarchy edges in one or more steps: `Reaches H a b`
holds when `b` is an ancestor of `a`, i.e. a role reachable from `a` through
the parent lists of `H`. -/
inductive Reaches (H : UserRole → List UserRole) : UserRole → UserRole → Prop
  | single {u p : UserRole} : p ∈ H u → Reaches H u p
  | tail {u v p : UserRole} : Reaches H u v → p ∈ H v → Reaches H u p

/-- Reachability from `c` by steps that never enter the set `V`: the nodes
newly visited by the traversal when it is entered at `c` with visited set `V`.
`c` itself is included (the traversal marks it first). -/
inductive NVisit (H : UserRole → List UserRole) (V : Finset UserRole) (c : UserRole) :
    UserRole → Prop
  | base : NVisit H V c c
  | step {u p : UserRole} : NVisit H V c u → p ∈ H u → p ∉ V → NVisit H V c p

/-! ## Rate limiter (`src/lib/apiAuth.ts`) -/

/-- One entry of the in-memory `requestCounts` record: a request count and the
window-reset timestamp. -/
structure Bucket where
  count : Nat
  resetTime : Nat
deriving DecidableEq, Repr

/-- The `requestCounts` record, keyed by user key. -/
abbrev RateMap : Type := String → Option Bucket

/-- Point update of the `requestCounts` record. -/
def RateMap.set (m : RateMap) (k : String) (b : Bucket) : RateMap :=
  fun k' => if k' = k then some b else m k'

/-- `MAX_REQUESTS_PER_MINUTE = 60`. -/
def MAX_REQUESTS_PER_MINUTE : Nat := 60

/-- `RATE_LIMIT_WINDOW_MS = 60 * 1000`. -/
def RATE_LIMIT_WINDOW_MS : Nat := 60 * 1000

/-- The key under which a caller is counted: `userId || 'anonymous'` (the only
falsy string is the empty one). -/
def rateKey (userId : String) : String :=
  if userId = "" then "anonymous" else userId

/-- `isRateLimited(userId)` at clock value `now` (`Date.now()`), acting on the
`requestCounts` state: if no bucket exists or its window expired, install a
fresh bucket with count 1 and allow; otherwise increment the count and report
whether it now exceeds the threshold. -/
def isRateLimited (now : Nat) (userId : String) (m : RateMap) : Bool × RateMap :=
  let userKey := rateKey userId
  match m userKey with
  | none =>
    (false, m.set userKey ⟨1, now + RATE_LIMIT_WINDOW_MS⟩)
  | some b =>
    if b.resetTime < now then
      (false, m.set userKey ⟨1, now + RATE_LIMIT_WINDOW_MS⟩)
    else
      (decide (b.count + 1 > MAX_REQUESTS_PER_MINUTE), m.set userKey ⟨b.count + 1, b.resetTime⟩)

/-- A sequence of calls to `isRateLimited` for the same user id, one per clock
value in the list, returning the list of verdicts and the final state. -/
def rateCalls (userId : String) : List Nat → RateMap → List Bool × RateMap
  | [], m => ([], m)
  | t :: ts, m =>
    let first := isRateLimited t userId m
    let rest := rateCalls userId ts first.2
    (first.1 :: rest.1, rest.2)

/-! ## The API authorization guard `withAuth` (`src/lib/apiAuth.ts`) -/

/-- The `RouteConfig` options of `withAuth`. -/
structure RouteConfig where
  requiredRole : Option UserRole := none
  requiredPermissions : Option (List Permission) := none
  anyPermission : Option (List Permission) := none
deriving DecidableEq, Repr

/-- The row of the `users` table for the authenticated caller, as defined by
the database schema: a `role` column (nullable text, here already classified)
and the `locked_until` lock-expiry timestamp.  `withAuth` selects only the
`role` column. -/
structure UserRow where
  role : Option UserRole
  locked_until : Option Nat
deriving DecidableEq, Repr

/-- One row inserted into `audit_logs` by `logApiAccess`. -/
structure AuditEvent where
  path : String
  method : String
  userId : Option String
  userRole : Option UserRole
  success : Bool
  reason : Option String
deriving DecidableEq, Repr

/-- `logApiAccess`: attempt the `audit_logs` insert inside `try`/`catch`; a
failing sink (`sinkOk = false`) throws, the `catch` swallows the error, and in
either case exactly this one event was emitted toward the sink and control
returns normally to the caller. -/
def logApiAccess (sinkOk : Bool) (ev : AuditEvent) : List AuditEvent :=
  match sinkOk with
  | true => [ev]
  | false => [ev]

/-- The outcomes `withAuth` can produce: the wrapped handler's response on
success, one JSON error response per deny branch, and the 500 response of the
outer `catch`. -/
inductive ApiVerdict : Type
  | handlerResponse
  | unauthenticated
  | tooManyRequests
  | roleNotFound
  | insufficientRole
  | missingRequiredPermissions
  | noMatchingPermissions
  | internalError
deriving DecidableEq, Repr

/-- The guard `withAuth(handler, config)` applied to one request, as a
function of the request data and the behaviour of its collaborators:
`session` is the session lookup result, `row` the `users`-table lookup result
(`none` models a query error or a missing row), `sinkOk` whether the audit
insert succeeds, `handlerOk` whether the wrapped handler returns normally
(`false` models a thrown exception, handled by the outer `catch`), and `m` the
current `requestCounts` state.  Returned are the verdict, the list of audit
events emitted during the call (in order), and the new rate-limiter state. -/
def withAuth (cfg : RouteConfig) (path method : String) (now : Nat)
    (session : Option String) (row : Option UserRow)
    (sinkOk handlerOk : Bool) (m : RateMap) :
    ApiVerdict × List AuditEvent × RateMap :=
  match session with
  | none =>
    (.unauthenticated, logApiAccess sinkOk ⟨path, method, none, none, false, some "No session"⟩, m)
  | some userId =>
    let rl := isRateLimited now userId m
    if rl.1 then
      (.tooManyRequests,
       logApiAccess sinkOk ⟨path, method, some userId, none, false, some "Rate limited"⟩, rl.2)
    else if cfg.requiredRole.isSome || cfg.requiredPermissions.isSome
        || cfg.anyPermission.isSome then
      match row.bind UserRow.role with
      | none =>
        (.roleNotFound,
         logApiAccess sinkOk ⟨path, method, some userId, none, false, some "Role not found"⟩, rl.2)
      | some userRole =>
        if cfg.requiredRole.any (fun rr => !hasRole (some userRole) rr) then
          (.insufficientRole,
           logApiAccess sinkOk
             ⟨path, method, some userId, some userRole, false, some "Insufficient role"⟩, rl.2)
        else if cfg.requiredPermissions.any
            (fun ps => ps.length > 0 && !(ps.all fun p => hasPermission (some userRole) p)) then
          (.missingRequiredPermissions,
           logApiAccess sinkOk
             ⟨path, method, some userId, some userRole, false,
              some "Missing required permissions"⟩, rl.2)
        else if cfg.anyPermission.any
            (fun ps => ps.length > 0 && !(ps.any fun p => hasPermission (some userRole) p)) then
          (.noMatchingPermissions,
           logApiAccess sinkOk
             ⟨path, method, some userId, some userRole, false,
              some "No matching permissions"⟩, rl.2)
        else
          let okLog := logApiAccess sinkOk ⟨path, method, some userId, some userRole, true, none⟩
          if handlerOk then (.handlerResponse, okLog, rl.2)
          else
            (.internalError,
             okLog ++ logApiAccess sinkOk ⟨path, method, none, none, false, some "Error"⟩, rl.2)
    else
      let okLog := logApiAccess sinkOk ⟨path, method, some userId, none, true, none⟩
      if handlerOk then (.handlerResponse, okLog, rl.2)
      else
        (.internalError,
         okLog ++ logApiAccess sinkOk ⟨path, method, none, none, false, some "Error"⟩, rl.2)

/-! ## The route-protection middleware -/

/-- The configured public routes. -/
def publicRoutes : List String :=
  ["/", "/login", "/register", "/api/auth/callback", "/api/auth/logout",
   "/api/auth/reset-password", "/unauthorized"]

/-- One route matches a configured rule key when it equals the key or
continues it across a path separator:
`path === route || path.startsWith(route + '/')`. -/
def routeMatches (path route : String) : Bool :=
  path == route || List.isPrefixOf (route ++ "/").data path.data

/-- The permission-gated route table `routePermissions`, in configuration
order. -/
def routePermissions : List (String × List Permission) :=
  [("/dashboard", [viewProjects]),
   ("/projects", [viewProjects]),
   ("/projects/new", [manageProjects]),
   ("/projects/edit", [manageProjects]),
   ("/users", [viewUsers]),
   ("/users/manage", [manageUsers]),
   ("/settings", [manageSettings]),
   ("/analytics", [viewAnalytics])]

/-- The role-gated route table `routeRoles`.  Role names are the raw strings
read from the `users` table (the middleware compares them by string equality,
without the hierarchy). -/
def routeRoles : List (String × List String) :=
  [("/admin", ["admin"]), ("/director", ["admin", "director"])]

/-- The outcomes of the middleware: pass through on a public route, redirect
to the login page (preserving the requested path), redirect to logout when the
user row cannot be fetched, redirect to `/unauthorized`, or continue with
security headers attached. -/
inductive MwResult : Type
  | nextPublic
  | redirectLogin (redirectedFrom : String)
  | redirectLogout
  | redirectUnauthorized
  | nextSecured
deriving DecidableEq, Repr

/-- The middleware applied to one request: `session` is the session lookup
result, `roleLookup` the raw `role` string fetched from the `users` table
(`none` models a query error or a missing row), and `checkPerm` the external
`check-permissions` edge function consulted for permission-gated routes
(`checkPerm role perms` stands for a successful invocation answering
`hasPermission`; an invocation error is modelled as `false`, which the source
also treats as a denial).  The source iterates each route table in order and
redirects on the first matching rule whose requirement fails; continuing past
the loops otherwise is equivalent to: redirect iff some matching rule fails. -/
def middleware (path : String) (session : Option String) (roleLookup : Option String)
    (checkPerm : String → List Permission → Bool) : MwResult :=
  if publicRoutes.any (fun route => routeMatches path route) then
    .nextPublic
  else
    match session with
    | none => .redirectLogin path
    | some _ =>
      match roleLookup with
      | none => .redirectLogout
      | some userRole =>
        if routeRoles.any
            (fun rule => routeMatches path rule.1 && !(rule.2.contains userRole)) then
          .redirectUnauthorized
        else if routePermissions.any
            (fun rule => routeMatches path rule.1 && !(checkPerm userRole rule.2)) then
          .redirectUnauthorized
        else
          .nextSecured

/-! ## Claim theorems -/

/-- C1.  The claim states that a request whose resolved identity is locked
(its `locked_until` timestamp not yet passed) is denied by `withAuth` with
reason `AccountLocked`.  The code has no such branch: `withAuth` selects only
the `role` column and never reads `locked_until`, so a locked identity with a
valid session is allowed — both with an empty config and with a satisfied role
requirement — even though at clock 1000 the lock expiry 999999 is still in the
future.  (`ApiVerdict` enumerates every outcome of `withAuth`; none of them is
an account-locked denial.) -/
theorem c1_lockout_not_enforced :
    (withAuth {} "/api/projects" "GET" 1000 (some "user-1")
      (some ⟨some client, some 999999⟩) true true (fun _ => none)).1 = .handlerResponse
    ∧ (withAuth ⟨some client, none, none⟩ "/api/projects" "GET" 1000 (some "user-1")
      (some ⟨some client, some 999999⟩) true true (fun _ => none)).1 = .handlerResponse
    ∧ 1000 < 999999 := by
  decide

/-- C3.  Under the shipped `ROLE_HIERARCHY`, `hasRole('team', 'admin')` and
`hasRole('director', 'admin')` are true, and the resolved permission sets of
`team` and `director` contain every direct grant of `admin`, including
`manage:users` and `manage:roles`: the lower-privilege roles hold the full
admin permission set through inheritance. -/
theorem c3_inverted_hierarchy_grants_admin :
    hasRole (some team) admin = true
    ∧ hasRole (some director) admin = true
    ∧ ROLE_PERMISSIONS admin ⊆ getAllPermissions (some team)
    ∧ ROLE_PERMISSIONS admin ⊆ getAllPermissions (some director)
    ∧ manageUsers ∈ getAllPermissions (some team)
    ∧ manageRoles ∈ getAllPermissions (some team)
    ∧ manageUsers ∈ getAllPermissions (some director)
    ∧ manageRoles ∈ getAllPermissions (some director) := by
  decide

/-- C7.  For every role `R`, `getAllPermissions(R)` is a superset of the
direct grants `ROLE_PERMISSIONS[R]`, its membership is exactly the union of
the direct grants of `R` and of every role in `getInheritedRoles(R)`, and the
returned list carries no duplicates (set semantics). -/
theorem c7_resolved_permissions_union :
    ∀ R : UserRole,
      ROLE_PERMISSIONS R ⊆ getAllPermissions (some R)
      ∧ (∀ p : Permission,
          p ∈ getAllPermissions (some R) ↔
            p ∈ ROLE_PERMISSIONS R ∨ ∃ r ∈ getInheritedRoles R, p ∈ ROLE_PERMISSIONS r)
      ∧ (getAllPermissions (some R)).Nodup := by
  decide

/-- C10.  For every role, and for an undefined role, the helpers
`hasAllPermissions`, `hasAnyPermission` and `hasRequiredRole` return false on
an empty requirement list: an empty requirement is denied, not vacuously
granted. -/
theorem c10_empty_requirements_deny :
    ∀ r : Option UserRole,
      hasAllPermissions r [] = false
      ∧ hasAnyPermission r [] = false
      ∧ hasRequiredRole r [] = false := by
  decide

/-- C2, counterexample.  The path `/projects/new/x` is an exact match of no
configured rule key and a prefix match of the two rules `/projects`
(`view:projects`) and `/projects/new` (`manage:projects`).  The claim says
only the longest match, `/projects/new`, is applied; but with an oracle that
grants exactly the `manage:projects` requirement (so the longest-matching rule
passes), the middleware still redirects to `/unauthorized`: the `/projects`
rule's requirement was enforced as well. -/
theorem c2_counterexample :
    (publicRoutes.all fun route => !(routeMatches "/projects/new/x" route)) = true
    ∧ (routeRoles.all fun rule => rule.1 != "/projects/new/x") = true
    ∧ (routePermissions.all fun rule => rule.1 != "/projects/new/x") = true
    ∧ routeMatches "/projects/new/x" "/projects" = true
    ∧ routeMatches "/projects/new/x" "/projects/new" = true
    ∧ (fun (_ : String) (ps : List Permission) => ps == [manageProjects]) "team"
        [manageProjects] = true
    ∧ middleware "/projects/new/x" (some "user-1") (some "team")
        (fun _ ps => ps == [manageProjects]) = .redirectUnauthorized := by
  decide

/-- C4, counterexample.  The path `/zzz` matches no configured rule (it is not
public and matches no role-gated or permission-gated rule), yet the middleware
allows any authenticated identity whose user row is fetchable — here one whose
role string `intruder` is not even one of the application's roles — instead of
requiring the lowest-privilege authenticated role. -/
theorem c4_counterexample :
    (publicRoutes.all fun route => !(routeMatches "/zzz" route)) = true
    ∧ (routeRoles.all fun rule => !(routeMatches "/zzz" rule.1)) = true
    ∧ (routePermissions.all fun rule => !(routeMatches "/zzz" rule.1)) = true
    ∧ ("intruder" ∉ ["admin", "director", "team", "client", "builder"])
    ∧ middleware "/zzz" (some "user-1") (some "intruder") (fun _ _ => true)
        = .nextSecured := by
  decide

/-- C6, counterexample.  A call to `withAuth` in which every check passes but
the wrapped handler throws emits two audit events, not one: the success event
logged before invoking the handler, then the error event logged by the outer
`catch`. -/
theorem c6_counterexample :
    ((withAuth {} "/api/p" "GET" 0 (some "user-1") none true false
      (fun _ => none)).2.1).length = 2 := by
  decide

/-- C8, counterexample.  On the shipped hierarchy the traversal from `team`
returns `[director, admin, admin]`: `admin` is pushed once as a parent of
`director` and once more as a direct parent of `team` (the visited set stops
re-traversal, but the push precedes the visited check), so the returned list
is not duplicate-free as the claim states. -/
theorem c8_counterexample :
    getInheritedRolesWith ROLE_HIERARCHY team = [director, admin, admin]
    ∧ ¬ (getInheritedRolesWith ROLE_HIERARCHY team).Nodup := by
  decide

/-- The `try`/`catch` inside `logApiAccess` swallows a sink failure: whatever
the sink does, the call returns normally having emitted exactly its event. -/
theorem logApiAccess_eq (sinkOk : Bool) (ev : AuditEvent) :
    logApiAccess sinkOk ev = [ev] := by
  cases sinkOk <;> rfl

/-- C9.  Inheritance direction: `hasRole('admin', 'director')` is false
(`admin` does not inherit from `director` in the configured hierarchy), and a
`withAuth` route gated on role `director`, called by an authenticated,
not-rate-limited user whose role is `admin`, denies with the insufficient-role
verdict. -/
theorem c9_inheritance_direction :
    hasRole (some admin) director = false
    ∧ ∀ (path method : String) (now : Nat) (userId : String) (lockedU : Option Nat)
        (sinkOk handlerOk : Bool) (m : RateMap),
        (isRateLimited now userId m).1 = false →
        (withAuth ⟨some director, none, none⟩ path method now (some userId)
          (some ⟨some admin, lockedU⟩) sinkOk handlerOk m).1 = .insufficientRole := by
  refine ⟨by decide, ?_⟩
  intro path method now userId lockedU sinkOk handlerOk m h
  have hr : hasRole (some admin) director = false := by decide
  simp [withAuth, h, hr]

/-- C9, witness: the theorem applied at a concrete request. -/
theorem c9_inheritance_direction_witness :
    (withAuth ⟨some director, none, none⟩ "/api/d" "GET" 0 (some "user-1")
      (some ⟨some admin, none⟩) true true (fun _ => none)).1 = .insufficientRole :=
  c9_inheritance_direction.2 "/api/d" "GET" 0 "user-1" none true true (fun _ => none)
    (by decide)

/-- A guarded scan `q x && !(r x)` over a list finds no witness exactly when
every element passing the guard `q` also passes the check `r`. -/
theorem any_guard_eq_false_iff {α : Type} (l : List α) (q r : α → Bool) :
    (l.any fun x => q x && !(r x)) = false ↔
      ∀ x ∈ l, q x = true → r x = true := by
  rw [List.any_eq_false]
  constructor
  · intro h x hx hq
    by_cases hr : r x = true
    · exact hr
    · exfalso
      apply h x hx
      rw [Bool.and_eq_true, Bool.not_eq_true']
      exact ⟨hq, Bool.eq_false_iff.mpr hr⟩
  · intro h x hx hc
    rw [Bool.and_eq_true, Bool.not_eq_true'] at hc
    obtain ⟨hq, hn⟩ := hc
    rw [h x hx hq] at hn
    simp at hn

/-- If no list element passes the guard `q`, a scan for `q x && r x` finds no
witness either. -/
theorem any_and_eq_false {α : Type} (l : List α) (q r : α → Bool)
    (h : (l.any fun x => q x) = false) :
    (l.any fun x => q x && r x) = false := by
  rw [List.any_eq_false] at h ⊢
  intro x hx hc
  rw [Bool.and_eq_true] at hc
  exact h x hx hc.1

/-- C2, amended.  For a non-public path the middleware enforces every matching
rule, not only the longest prefix match: with a session and a fetched role, it
continues (with security headers) exactly when every matching role rule lists
the caller's role and every matching permission rule passes the permission
check; a single failing matching rule redirects, whatever the other matching
rules say. -/
theorem c2_all_matching_rules_enforced :
    ∀ (path userId roleStr : String) (checkPerm : String → List Permission → Bool),
      (publicRoutes.any fun route => routeMatches path route) = false →
      (middleware path (some userId) (some roleStr) checkPerm = .nextSecured ↔
        (∀ rule ∈ routeRoles,
          routeMatches path rule.1 = true → rule.2.contains roleStr = true)
        ∧ (∀ rule ∈ routePermissions,
          routeMatches path rule.1 = true → checkPerm roleStr rule.2 = true)) := by
  intro path userId roleStr checkPerm hpub
  have e1 := any_guard_eq_false_iff routeRoles
    (fun rule => routeMatches path rule.1) (fun rule => rule.2.contains roleStr)
  have e2 := any_guard_eq_false_iff routePermissions
    (fun rule => routeMatches path rule.1) (fun rule => checkPerm roleStr rule.2)
  cases h1 : (routeRoles.any fun rule =>
      routeMatches path rule.1 && !(rule.2.contains roleStr)) with
  | true =>
    simp only [middleware, hpub, Bool.false_eq_true, if_false, h1, if_true]
    constructor
    · intro hc
      exact absurd hc (by simp)
    · rintro ⟨ha, _⟩
      have hf := e1.mpr ha
      rw [h1] at hf
      simp at hf
  | false =>
    cases h2 : (routePermissions.any fun rule =>
        routeMatches path rule.1 && !(checkPerm roleStr rule.2)) with
    | true =>
      simp only [middleware, hpub, Bool.false_eq_true, if_false, h1, h2, if_true]
      constructor
      · intro hc
        exact absurd hc (by simp)
      · rintro ⟨_, hb⟩
        have hf := e2.mpr hb
        rw [h2] at hf
        simp at hf
    | false =>
      simp only [middleware, hpub, Bool.false_eq_true, if_false, h1, h2]
      constructor
      · intro _
        exact ⟨e1.mp h1, e2.mp h2⟩
      · intro _
        trivial

/-- C2, witness: on a non-public path matching the `/projects` rule, a
permission check that grants everything yields the secured continuation. -/
theorem c2_all_matching_rules_enforced_witness :
    middleware "/projects/x" (some "user-1") (some "admin") (fun _ _ => true)
      = .nextSecured :=
  (c2_all_matching_rules_enforced "/projects/x" "user-1" "admin" (fun _ _ => true)
    (by decide)).mpr (by decide)

/-- C4, amended.  On a path matching no configured rule the middleware denies
a missing session (redirect to login, preserving the path) and an unfetchable
user row (redirect to logout), but allows every authenticated identity whose
row is fetchable, whatever its role string: the fallback requires
authentication only, not the lowest-privilege authenticated role. -/
theorem c4_unmatched_route_fallback :
    ∀ (path userId roleStr : String) (checkPerm : String → List Permission → Bool),
      (publicRoutes.any fun route => routeMatches path route) = false →
      (routeRoles.any fun rule => routeMatches path rule.1) = false →
      (routePermissions.any fun rule => routeMatches path rule.1) = false →
      middleware path none none checkPerm = .redirectLogin path
      ∧ middleware path (some userId) none checkPerm = .redirectLogout
      ∧ middleware path (some userId) (some roleStr) checkPerm = .nextSecured := by
  intro path userId roleStr checkPerm hpub hrole hperm
  have e1 := any_and_eq_false routeRoles
    (fun rule => routeMatches path rule.1)
    (fun rule => !(rule.2.contains roleStr)) hrole
  have e2 := any_and_eq_false routePermissions
    (fun rule => routeMatches path rule.1)
    (fun rule => !(checkPerm roleStr rule.2)) hperm
  refine ⟨?_, ?_, ?_⟩ <;>
    simp only [middleware, hpub, Bool.false_eq_true, if_false, e1, e2]

/-- C4, witness: the amended statement at the unmatched path `/zzz`. -/
theorem c4_unmatched_route_fallback_witness :
    middleware "/zzz" none none (fun _ _ => true) = .redirectLogin "/zzz"
    ∧ middleware "/zzz" (some "user-1") none (fun _ _ => true) = .redirectLogout
    ∧ middleware "/zzz" (some "user-1") (some "client") (fun _ _ => true)
      = .nextSecured :=
  c4_unmatched_route_fallback "/zzz" "user-1" "client" (fun _ _ => true)
    (by decide) (by decide) (by decide)

/-- C6, amended.  `withAuth` emits exactly one audit event whenever the
wrapped handler returns normally, and at least one (in fact two on the path
where the handler throws after the success event) on every call; and the
verdict and the emitted events never depend on whether the audit sink
succeeds or fails. -/
theorem c6_audit_emission :
    ∀ (cfg : RouteConfig) (path method : String) (now : Nat) (session : Option String)
      (row : Option UserRow) (sinkOk handlerOk : Bool) (m : RateMap),
      ((withAuth cfg path method now session row sinkOk true m).2.1).length = 1
      ∧ 1 ≤ ((withAuth cfg path method now session row sinkOk handlerOk m).2.1).length
      ∧ (withAuth cfg path method now session row sinkOk handlerOk m).1
          = (withAuth cfg path method now session row true handlerOk m).1
      ∧ (withAuth cfg path method now session row sinkOk handlerOk m).2.1
          = (withAuth cfg path method now session row true handlerOk m).2.1 := by
  intro cfg path method now session row sinkOk handlerOk m
  cases session with
  | none => simp [withAuth, logApiAccess_eq]
  | some userId =>
    refine ⟨?_, ?_, ?_, ?_⟩ <;>
      simp only [withAuth, logApiAccess_eq] <;>
      repeat' split <;> try simp

/-- Behaviour of a run of `isRateLimited` calls against a loaded bucket: with
a bucket `⟨c, R⟩` installed for the caller and every call time inside the
window (at most `R`), the i-th call answers `limited` exactly when the
incremented count `c + i + 1` exceeds the threshold, and afterwards the bucket
holds count `c + number of calls` with the window end unchanged. -/
theorem rateCalls_loaded (userId : String) (R : Nat) :
    ∀ (ts : List Nat) (c : Nat) (m : RateMap),
      m (rateKey userId) = some ⟨c, R⟩ →
      (∀ t ∈ ts, t ≤ R) →
      (rateCalls userId ts m).1
        = (List.range ts.length).map (fun i => decide (c + i + 1 > MAX_REQUESTS_PER_MINUTE))
      ∧ (rateCalls userId ts m).2 (rateKey userId) = some ⟨c + ts.length, R⟩ := by
  intro ts
  induction ts with
  | nil =>
    intro c m hm _
    exact ⟨rfl, by simpa using hm⟩
  | cons t ts ih =>
    intro c m hm hin
    have hnotlt : ¬ R < t := Nat.not_lt.mpr (hin t (by simp))
    have hstep : isRateLimited t userId m
        = (decide (c + 1 > MAX_REQUESTS_PER_MINUTE),
           m.set (rateKey userId) ⟨c + 1, R⟩) := by
      simp [isRateLimited, hm, hnotlt]
    have hm' : (m.set (rateKey userId) ⟨c + 1, R⟩) (rateKey userId)
        = some ⟨c + 1, R⟩ := by
      simp [RateMap.set]
    obtain ⟨ih1, ih2⟩ := ih (c + 1) (m.set (rateKey userId) ⟨c + 1, R⟩) hm'
      (fun t' ht' => hin t' (List.mem_cons_of_mem t ht'))
    constructor
    · simp only [rateCalls, hstep]
      rw [ih1]
      simp only [List.length_cons]
      rw [List.range_succ_eq_map, List.map_cons, List.map_map]
      congr 1
      apply List.map_congr_left
      intro a _
      simp only [Function.comp_apply]
      have h : c + 1 + a + 1 = c + (a + 1) + 1 := by omega
      rw [h]
    · simp only [rateCalls, hstep]
      rw [ih2]
      simp only [List.length_cons]
      congr 2
      omega

/-- C5.  Fixed-window behaviour of the rate limiter at the shipped threshold
of 60 requests per 60-second window.  First part: starting with no bucket for
the caller, a first call at time `t0` followed by further calls all within the
window (`t ≤ t0 + 60000`) answers `not limited` for calls 1..60 and `limited`
for call 61 and every later call (`i`-th call limited iff `i + 1 > 60`,
0-based), while the count keeps incrementing to the total number of calls.
Second part: a call after the window end (`resetTime < t`) resets the bucket
to count 1 with a fresh window and is allowed. -/
theorem c5_rate_limiter_window :
    (∀ (userId : String) (t0 : Nat) (ts : List Nat) (m : RateMap),
      m (rateKey userId) = none →
      (∀ t ∈ ts, t ≤ t0 + RATE_LIMIT_WINDOW_MS) →
      (rateCalls userId (t0 :: ts) m).1
        = (List.range (ts.length + 1)).map (fun i => decide (i + 1 > MAX_REQUESTS_PER_MINUTE))
      ∧ (rateCalls userId (t0 :: ts) m).2 (rateKey userId)
        = some ⟨ts.length + 1, t0 + RATE_LIMIT_WINDOW_MS⟩)
    ∧ (∀ (userId : String) (t : Nat) (m : RateMap) (b : Bucket),
      m (rateKey userId) = some b →
      b.resetTime < t →
      isRateLimited t userId m
        = (false, m.set (rateKey userId) ⟨1, t + RATE_LIMIT_WINDOW_MS⟩)) := by
  constructor
  · intro userId t0 ts m hm hin
    have hfirst : isRateLimited t0 userId m
        = (false, m.set (rateKey userId) ⟨1, t0 + RATE_LIMIT_WINDOW_MS⟩) := by
      simp [isRateLimited, hm]
    have hm' : (m.set (rateKey userId) ⟨1, t0 + RATE_LIMIT_WINDOW_MS⟩) (rateKey userId)
        = some ⟨1, t0 + RATE_LIMIT_WINDOW_MS⟩ := by
      simp [RateMap.set]
    obtain ⟨h1, h2⟩ := rateCalls_loaded userId (t0 + RATE_LIMIT_WINDOW_MS) ts 1 _ hm' hin
    constructor
    · simp only [rateCalls, hfirst]
      rw [h1]
      rw [List.range_succ_eq_map, List.map_cons, List.map_map]
      congr 1
      apply List.map_congr_left
      intro a _
      simp only [Function.comp_apply]
      have h : 1 + a + 1 = a + 1 + 1 := by omega
      rw [h]
    · simp only [rateCalls, hfirst]
      rw [h2]
      congr 2
      omega
  · intro userId t m b hm hlt
    simp [isRateLimited, hm, hlt]

/-- C5, witness: from a fresh state, 61 calls of the same caller inside one
window answer `false` sixty times and then `true`; and a call after the window
end of a loaded bucket resets it and is allowed. -/
theorem c5_rate_limiter_window_witness :
    (rateCalls "user-1" (0 :: List.replicate 60 0) (fun _ => none)).1
      = (List.range 61).map (fun i => decide (i + 1 > MAX_REQUESTS_PER_MINUTE))
    ∧ isRateLimited 70000 "user-1" (fun _ => some ⟨61, 60000⟩)
      = (false, RateMap.set (fun _ => some ⟨61, 60000⟩) (rateKey "user-1")
          ⟨1, 70000 + RATE_LIMIT_WINDOW_MS⟩) := by
  constructor
  · have h := (c5_rate_limiter_window.1 "user-1" 0 (List.replicate 60 0) (fun _ => none)
      rfl (by decide)).1
    simpa using h
  · exact c5_rate_limiter_window.2 "user-1" 70000 (fun _ => some ⟨61, 60000⟩) ⟨61, 60000⟩
      rfl (by decide)

/-- Unfolding of the traversal at a positive depth budget: return at an
already-visited node, otherwise mark the node and run the parent loop. -/
theorem traverseF_succ (H : UserRole → List UserRole) (n : Nat)
    (V : Finset UserRole) (c : UserRole) :
    traverseF H (n + 1) V c =
      if c ∈ V then (V, []) else traverseList H n (insert c V) (H c) := by
  rfl

/-- The parent loop on an empty list does nothing. -/
theorem traverseList_nil (H : UserRole → List UserRole) (n : Nat) (V : Finset UserRole) :
    traverseList H n V [] = (V, []) := by
  rfl

/-- The fold of the parent loop, started on an already accumulated result. -/
theorem traverseList_shift (H : UserRole → List UserRole) (n : Nat) :
    ∀ (l : List UserRole) (V : Finset UserRole) (r : List UserRole),
      l.foldl
        (fun acc p =>
          let sub := traverseF H n acc.1 p
          (sub.1, acc.2 ++ p :: sub.2))
        (V, r)
      = ((traverseList H n V l).1, r ++ (traverseList H n V l).2) := by
  intro l
  induction l with
  | nil =>
    intro V r
    simp [traverseList]
  | cons p ps ih =>
    intro V r
    simp only [traverseList, List.foldl_cons] at ih ⊢
    rw [ih _ (r ++ p :: (traverseF H n V p).2)]
    simp only [List.nil_append]
    rw [ih _ (p :: (traverseF H n V p).2)]
    simp

/-- One step of the parent loop: push the parent, traverse it, then continue
with the rest of the list on the grown visited set. -/
theorem traverseList_cons (H : UserRole → List UserRole) (n : Nat)
    (V : Finset UserRole) (p : UserRole) (ps : List UserRole) :
    traverseList H n V (p :: ps) =
      ((traverseList H n (traverseF H n V p).1 ps).1,
        p :: (traverseF H n V p).2 ++ (traverseList H n (traverseF H n V p).1 ps).2) := by
  simp only [traverseList, List.foldl_cons]
  rw [traverseList_shift]
  simp [traverseList]

/-- The visited set only grows along the traversal. -/
theorem traverseF_subset (H : UserRole → List UserRole) :
    ∀ (n : Nat) (V : Finset UserRole) (c : UserRole), V ⊆ (traverseF H n V c).1 := by
  intro n
  induction n with
  | zero => intro V c; exact Finset.Subset.refl V
  | succ n ih =>
    have hlist : ∀ (l : List UserRole) (V : Finset UserRole),
        V ⊆ (traverseList H n V l).1 := by
      intro l
      induction l with
      | nil => intro V; rw [traverseList_nil]
      | cons p ps ihl =>
        intro V
        rw [traverseList_cons]
        exact (ih V p).trans (ihl (traverseF H n V p).1)
    intro V c
    rw [traverseF_succ]
    by_cases hc : c ∈ V
    · rw [if_pos hc]
    · rw [if_neg hc]
      exact (Finset.subset_insert c V).trans (hlist (H c) (insert c V))

/-- The visited set only grows along the parent loop. -/
theorem traverseList_subset (H : UserRole → List UserRole) :
    ∀ (n : Nat) (l : List UserRole) (V : Finset UserRole),
      V ⊆ (traverseList H n V l).1 := by
  intro n l
  induction l with
  | nil => intro V; rw [traverseList_nil]
  | cons p ps ihl =>
    intro V
    rw [traverseList_cons]
    exact (traverseF_subset H n V p).trans (ihl (traverseF H n V p).1)

/-- Avoid-set reachability is antitone in the avoided set. -/
theorem NVisit.mono {H : UserRole → List UserRole} {V V' : Finset UserRole}
    {c x : UserRole} (hVV : V ⊆ V') (h : NVisit H V' c x) : NVisit H V c x := by
  induction h with
  | base => exact .base
  | step _ hedge hnot ih => exact .step ih hedge (fun hx => hnot (hVV hx))

/-- A node visited from `c` avoiding `V` is `c` itself or lies outside `V`. -/
theorem NVisit.start_or_not_mem {H : UserRole → List UserRole} {V : Finset UserRole}
    {c x : UserRole} (h : NVisit H V c x) : x = c ∨ x ∉ V := by
  induction h with
  | base => exact Or.inl rfl
  | step _ _ hnot _ => exact Or.inr hnot

/-- Avoid-set reachability composes. -/
theorem NVisit.trans {H : UserRole → List UserRole} {V : Finset UserRole}
    {c q x : UserRole} (h1 : NVisit H V c q) (h2 : NVisit H V q x) :
    NVisit H V c x := by
  induction h2 with
  | base => exact h1
  | step _ hedge hnot ih => exact .step ih hedge hnot

/-- Peeling the start node off an avoid-set reachability derivation: a node
visited from `c` avoiding `V` is `c` itself, or is visited from some parent
`p` of `c`, avoiding `V` and `c`. -/
theorem NVisit.head_cases {H : UserRole → List UserRole} {V : Finset UserRole}
    {c x : UserRole} (h : NVisit H V c x) :
    x = c ∨ ∃ p ∈ H c, p ∉ insert c V ∧ NVisit H (insert c V) p x := by
  induction h with
  | base => exact Or.inl rfl
  | @step u p hu hedge hnot ih =>
    rcases ih with hrfl | ⟨q, hq, hqnot, hqv⟩
    · by_cases hpc : p = c
      · exact Or.inl hpc
      · refine Or.inr ⟨p, by rw [← hrfl]; exact hedge, ?_, .base⟩
        rw [Finset.mem_insert]
        rintro (h | h)
        · exact hpc h
        · exact hnot h
    · by_cases hpc : p = c
      · exact Or.inl hpc
      · refine Or.inr ⟨q, hq, hqnot, .step hqv hedge ?_⟩
        rw [Finset.mem_insert]
        rintro (h | h)
        · exact hpc h
        · exact hnot h

/-- Splitting an avoid-set reachability derivation along a grown avoided set:
if `V'` extends `V` only by nodes of a `V`-step-closed collection `S`, then a
node visited from `b` avoiding `V` is visited from `b` avoiding `V'`, or
belongs to `S`. -/
theorem NVisit.absorb {H : UserRole → List UserRole} {V V' : Finset UserRole}
    {b x : UserRole} (S : UserRole → Prop)
    (hclosed : ∀ u q, S u → q ∈ H u → q ∉ V → S q)
    (hsplit : ∀ y, y ∈ V' → y ∈ V ∨ S y)
    (h : NVisit H V b x) : NVisit H V' b x ∨ S x := by
  induction h with
  | base => exact Or.inl .base
  | @step u p hu hedge hnot ih =>
    rcases ih with hu' | hS
    · by_cases hp : p ∈ V'
      · rcases hsplit p hp with hpV | hpS
        · exact absurd hpV hnot
        · exact Or.inr hpS
      · exact Or.inl (.step hu' hedge hp)
    · exact Or.inr (hclosed u p hS hedge hnot)

/-- When no node is left outside the visited set, every node is visited. -/
theorem mem_of_card_sdiff_le_zero {V : Finset UserRole}
    (h : (Finset.univ \ V).card ≤ 0) : ∀ y : UserRole, y ∈ V := by
  intro y
  by_contra hy
  have hmem : y ∈ Finset.univ \ V := Finset.mem_sdiff.mpr ⟨Finset.mem_univ y, hy⟩
  have hpos : 0 < (Finset.univ \ V).card := Finset.card_pos.mpr ⟨y, hmem⟩
  omega

/-- Full characterization of the traversal, for every hierarchy (cyclic ones
included), by avoid-set reachability, provided the depth budget covers the
number of unvisited roles: the final visited set adds exactly the nodes
reachable from the entry avoiding the initial visited set, and the result list
collects exactly the parents of those nodes.  In particular the budget is
never exhausted: the traversal behaves as the unbounded source recursion,
whose call depth the visited set bounds in the same way. -/
theorem traverse_char (H : UserRole → List UserRole) :
    ∀ n : Nat,
      (∀ (V : Finset UserRole) (c x : UserRole), (Finset.univ \ V).card ≤ n →
        (x ∈ (traverseF H n V c).1 ↔ x ∈ V ∨ (c ∉ V ∧ NVisit H V c x))
        ∧ (x ∈ (traverseF H n V c).2 ↔
            c ∉ V ∧ ∃ u, NVisit H V c u ∧ x ∈ H u))
      ∧ (∀ (V : Finset UserRole) (l : List UserRole) (x : UserRole),
          (Finset.univ \ V).card ≤ n →
        (x ∈ (traverseList H n V l).1 ↔
            x ∈ V ∨ ∃ p ∈ l, p ∉ V ∧ NVisit H V p x)
        ∧ (x ∈ (traverseList H n V l).2 ↔
            x ∈ l ∨ ∃ p ∈ l, p ∉ V ∧ ∃ u, NVisit H V p u ∧ x ∈ H u)) := by
  intro n
  induction n with
  | zero =>
    have h0 : ∀ (l : List UserRole) (V : Finset UserRole),
        traverseList H 0 V l = (V, l) := by
      intro l
      induction l with
      | nil => intro V; rfl
      | cons p ps ihl =>
        intro V
        rw [traverseList_cons]
        have e : traverseF H 0 V p = (V, []) := rfl
        rw [e, ihl]
        rfl
    constructor
    · intro V c x hcard
      have hall := mem_of_card_sdiff_le_zero hcard
      constructor
      · constructor
        · exact fun h => Or.inl h
        · rintro (h | ⟨hcV, _⟩)
          · exact h
          · exact absurd (hall c) hcV
      · constructor
        · intro h
          exact absurd h (List.not_mem_nil x)
        · rintro ⟨hcV, _⟩
          exact absurd (hall c) hcV
    · intro V l x hcard
      have hall := mem_of_card_sdiff_le_zero hcard
      rw [h0 l V]
      constructor
      · constructor
        · exact fun h => Or.inl h
        · rintro (h | ⟨p, _, hpV, _⟩)
          · exact h
          · exact absurd (hall p) hpV
      · constructor
        · exact fun h => Or.inl h
        · rintro (h | ⟨p, _, hpV, _⟩)
          · exact h
          · exact absurd (hall p) hpV
  | succ n ih =>
    obtain ⟨_, ihL⟩ := ih
    have hF : ∀ (V : Finset UserRole) (c x : UserRole), (Finset.univ \ V).card ≤ n + 1 →
        (x ∈ (traverseF H (n + 1) V c).1 ↔ x ∈ V ∨ (c ∉ V ∧ NVisit H V c x))
        ∧ (x ∈ (traverseF H (n + 1) V c).2 ↔
            c ∉ V ∧ ∃ u, NVisit H V c u ∧ x ∈ H u) := by
      intro V c x hcard
      rw [traverseF_succ]
      by_cases hc : c ∈ V
      · rw [if_pos hc]
        constructor
        · constructor
          · exact fun h => Or.inl h
          · rintro (h | ⟨hcc, _⟩)
            · exact h
            · exact absurd hc hcc
        · constructor
          · intro h
            exact absurd h (List.not_mem_nil x)
          · rintro ⟨hcc, _⟩
            exact absurd hc hcc
      · rw [if_neg hc]
        have hcard' : (Finset.univ \ insert c V).card ≤ n := by
          rw [Finset.sdiff_insert,
            Finset.card_erase_of_mem (Finset.mem_sdiff.mpr ⟨Finset.mem_univ c, hc⟩)]
          have hpos : 0 < (Finset.univ \ V).card :=
            Finset.card_pos.mpr ⟨c, Finset.mem_sdiff.mpr ⟨Finset.mem_univ c, hc⟩⟩
          omega
        obtain ⟨hv, hr⟩ := ihL (insert c V) (H c) x hcard'
        constructor
        · rw [hv]
          constructor
          · rintro (hx | ⟨p, hp, hpnot, hpv⟩)
            · rcases Finset.mem_insert.mp hx with rfl | hxV
              · exact Or.inr ⟨hc, .base⟩
              · exact Or.inl hxV
            · refine Or.inr ⟨hc, ?_⟩
              have hpV : p ∉ V := fun h => hpnot (Finset.mem_insert_of_mem h)
              exact (NVisit.step .base hp hpV).trans
                (hpv.mono (Finset.subset_insert c V))
          · rintro (hx | ⟨hcc, hnv⟩)
            · exact Or.inl (Finset.mem_insert_of_mem hx)
            · rcases hnv.head_cases with hrfl | ⟨p, hp, hpnot, hpv⟩
              · exact Or.inl (by rw [hrfl]; exact Finset.mem_insert_self c V)
              · exact Or.inr ⟨p, hp, hpnot, hpv⟩
        · rw [hr]
          constructor
          · rintro (hx | ⟨p, hp, hpnot, u, hu, hxu⟩)
            · exact ⟨hc, c, .base, hx⟩
            · refine ⟨hc, u, ?_, hxu⟩
              have hpV : p ∉ V := fun h => hpnot (Finset.mem_insert_of_mem h)
              exact (NVisit.step .base hp hpV).trans
                (hu.mono (Finset.subset_insert c V))
          · rintro ⟨hcc, u, hu, hxu⟩
            rcases hu.head_cases with hrfl | ⟨p, hp, hpnot, hpu⟩
            · exact Or.inl (hrfl ▸ hxu)
            · exact Or.inr ⟨p, hp, hpnot, u, hpu, hxu⟩
    have hL : ∀ (l : List UserRole) (V : Finset UserRole) (x : UserRole),
        (Finset.univ \ V).card ≤ n + 1 →
        (x ∈ (traverseList H (n + 1) V l).1 ↔
            x ∈ V ∨ ∃ p ∈ l, p ∉ V ∧ NVisit H V p x)
        ∧ (x ∈ (traverseList H (n + 1) V l).2 ↔
            x ∈ l ∨ ∃ p ∈ l, p ∉ V ∧ ∃ u, NVisit H V p u ∧ x ∈ H u) := by
      intro l
      induction l with
      | nil =>
        intro V x hcard
        rw [traverseList_nil]
        constructor
        · constructor
          · exact fun h => Or.inl h
          · rintro (h | ⟨p, hp, _⟩)
            · exact h
            · exact absurd hp (List.not_mem_nil p)
        · constructor
          · intro h
            exact absurd h (List.not_mem_nil x)
          · rintro (h | ⟨p, hp, _⟩)
            · exact h
            · exact absurd hp (List.not_mem_nil p)
      | cons p ps ihl =>
        intro V x hcard
        have hsubT : V ⊆ (traverseF H (n + 1) V p).1 := traverseF_subset H (n + 1) V p
        have hcard2 : (Finset.univ \ (traverseF H (n + 1) V p).1).card ≤ n + 1 :=
          le_trans
            (Finset.card_le_card
              (Finset.sdiff_subset_sdiff (Finset.Subset.refl _) hsubT)) hcard
        have split_q : ∀ q u : UserRole, NVisit H V q u →
            (p ∉ V ∧ NVisit H V p u)
            ∨ (q ∈ (traverseF H (n + 1) V p).1 ∧ q ∈ V)
            ∨ (q ∉ (traverseF H (n + 1) V p).1
                ∧ NVisit H (traverseF H (n + 1) V p).1 q u) := by
          intro q u hnv
          by_cases hqT : q ∈ (traverseF H (n + 1) V p).1
          · rcases (hF V p q hcard).1.mp hqT with hqV | ⟨hpV, hpq⟩
            · exact Or.inr (Or.inl ⟨hqT, hqV⟩)
            · exact Or.inl ⟨hpV, hpq.trans hnv⟩
          · by_cases hpV : p ∈ V
            · have hT1 : (traverseF H (n + 1) V p).1 = V := by
                rw [traverseF_succ, if_pos hpV]
              refine Or.inr (Or.inr ⟨hqT, ?_⟩)
              rw [hT1]
              exact hnv
            · rcases hnv.absorb (NVisit H V p)
                (fun u' q' hS he hn => NVisit.step hS he hn)
                (fun y hy => by
                  rcases (hF V p y hcard).1.mp hy with h | ⟨_, h⟩
                  · exact Or.inl h
                  · exact Or.inr h) with h' | hS
              · exact Or.inr (Or.inr ⟨hqT, h'⟩)
              · exact Or.inl ⟨hpV, hS⟩
        have hfst : (traverseList H (n + 1) V (p :: ps)).1
            = (traverseList H (n + 1) (traverseF H (n + 1) V p).1 ps).1 := by
          rw [traverseList_cons]
        have hsnd : (traverseList H (n + 1) V (p :: ps)).2
            = p :: (traverseF H (n + 1) V p).2
              ++ (traverseList H (n + 1) (traverseF H (n + 1) V p).1 ps).2 := by
          rw [traverseList_cons]
        constructor
        · rw [hfst, (ihl (traverseF H (n + 1) V p).1 x hcard2).1]
          constructor
          · rintro (hxT | ⟨q, hq, hqT, hqv⟩)
            · rcases (hF V p x hcard).1.mp hxT with hxV | ⟨hpV, hpx⟩
              · exact Or.inl hxV
              · exact Or.inr ⟨p, List.mem_cons_self p ps, hpV, hpx⟩
            · refine Or.inr ⟨q, List.mem_cons_of_mem p hq, fun h => hqT (hsubT h),
                hqv.mono hsubT⟩
          · rintro (hxV | ⟨q, hq, hqV, hqv⟩)
            · exact Or.inl ((hF V p x hcard).1.mpr (Or.inl hxV))
            · rcases List.mem_cons.mp hq with hrfl | hqps
              · refine Or.inl ((hF V p x hcard).1.mpr (Or.inr ⟨?_, ?_⟩))
                · rw [← hrfl]; exact hqV
                · rw [← hrfl]; exact hqv
              · rcases split_q q x hqv with ⟨hpV, hpx⟩ | ⟨_, hqVmem⟩ | ⟨hqT, h'⟩
                · exact Or.inl ((hF V p x hcard).1.mpr (Or.inr ⟨hpV, hpx⟩))
                · exact absurd hqVmem hqV
                · exact Or.inr ⟨q, hqps, hqT, h'⟩
        · rw [hsnd, List.cons_append, List.mem_cons, List.mem_append,
            (ihl (traverseF H (n + 1) V p).1 x hcard2).2]
          constructor
          · rintro (hxp | hxT | hxL)
            · exact Or.inl (hxp ▸ List.mem_cons_self p ps)
            · rcases (hF V p x hcard).2.mp hxT with ⟨hpV, u, hu, hxu⟩
              exact Or.inr ⟨p, List.mem_cons_self p ps, hpV, u, hu, hxu⟩
            · rcases hxL with hxps | ⟨q, hq, hqT, u, hu, hxu⟩
              · exact Or.inl (List.mem_cons_of_mem p hxps)
              · exact Or.inr ⟨q, List.mem_cons_of_mem p hq, fun h => hqT (hsubT h),
                  u, hu.mono hsubT, hxu⟩
          · rintro (hxl | ⟨q, hq, hqV, u, hu, hxu⟩)
            · rcases List.mem_cons.mp hxl with hrfl | hxps
              · exact Or.inl hrfl
              · exact Or.inr (Or.inr (Or.inl hxps))
            · rcases List.mem_cons.mp hq with hrfl | hqps
              · refine Or.inr (Or.inl ((hF V p x hcard).2.mpr ⟨?_, u, ?_, hxu⟩))
                · rw [← hrfl]; exact hqV
                · rw [← hrfl]; exact hu
              · rcases split_q q u hu with ⟨hpV, hpu⟩ | ⟨_, hqVmem⟩ | ⟨hqT, h'⟩
                · exact Or.inr (Or.inl ((hF V p x hcard).2.mpr ⟨hpV, u, hpu, hxu⟩))
                · exact absurd hqVmem hqV
                · exact Or.inr (Or.inr (Or.inr ⟨q, hqps, hqT, u, h', hxu⟩))
    exact ⟨hF, fun V l x h => hL l V x h⟩

/-- With nothing visited yet, avoid-set reachability from `c` is exactly:
being `c`, or being an ancestor of `c`. -/
theorem NVisit_empty_iff (H : UserRole → List UserRole) (c u : UserRole) :
    NVisit H ∅ c u ↔ u = c ∨ Reaches H c u := by
  constructor
  · intro h
    induction h with
    | base => exact Or.inl rfl
    | @step u' p hu' hedge _ ih =>
      rcases ih with hrfl | hr
      · exact Or.inr (.single (by rw [← hrfl]; exact hedge))
      · exact Or.inr (.tail hr hedge)
  · rintro (hrfl | hr)
    · rw [hrfl]
      exact .base
    · induction hr with
      | single hedge => exact .step .base hedge (Finset.not_mem_empty _)
      | tail _ hedge ih => exact .step ih hedge (Finset.not_mem_empty _)

/-- C8, amended.  For every hierarchy configuration — cyclic ones included —
the traversal of `getInheritedRoles` terminates (it is a total function whose
depth budget, justified by `traverse_char`, is never exhausted) and the
returned list holds exactly the roles reachable from the queried role along
parent edges; the list may carry duplicates (one push per traversed edge, see
the counterexample), so it is the correct ancestor collection up to
multiplicity, not a duplicate-free list. -/
theorem c8_traversal_reachability :
    ∀ (H : UserRole → List UserRole) (role x : UserRole),
      x ∈ getInheritedRolesWith H role ↔ Reaches H role x := by
  intro H role x
  have hcard : (Finset.univ \ (∅ : Finset UserRole)).card ≤ Fintype.card UserRole := by
    rw [Finset.sdiff_empty, Finset.card_univ]
  have h := ((traverse_char H (Fintype.card UserRole)).1 ∅ role x hcard).2
  rw [getInheritedRolesWith, h]
  constructor
  · rintro ⟨_, u, hu, hxu⟩
    rcases (NVisit_empty_iff H role u).mp hu with hrfl | hr
    · exact .single (by rw [← hrfl]; exact hxu)
    · exact .tail hr hxu
  · intro hr
    refine ⟨Finset.not_mem_empty role, ?_⟩
    cases hr with
    | single hedge => exact ⟨role, .base, hedge⟩
    | tail hrv hedge =>
      exact ⟨_, (NVisit_empty_iff H role _).mpr (Or.inr hrv), hedge⟩

end ProjectBrain
